import Mathlib

set_option maxHeartbeats 1000000
set_option maxRecDepth 100000

/-! Shallow embedding of the skyline texture-atlas allocator of `atlas.go`
(package glh).  Go slices become Lean lists, Go `int` becomes `Int`,
the byte buffer becomes `List Nat`, and operations that can panic in Go
(out-of-range indexing / slicing) return `Option`, with `none` standing
for a panic.  GPU-texture calls (`gl.*`) are external effects with no
bearing on the allocator state and are not modelled. -/

/-- A node represents an area of an atlas texture which has been allocated
for use.  Mirrors Go struct `atlasNode`: `x` = region x, `y` = region
y + height, `z` = region width. -/
structure AtlasNode where
  x : Int
  y : Int
  z : Int
deriving DecidableEq, Repr, Inhabited

/-- A region denotes an allocated chunk of space in an atlas.
Mirrors Go struct `AtlasRegion`. -/
structure AtlasRegion where
  X : Int
  Y : Int
  W : Int
  H : Int
deriving DecidableEq, Repr, Inhabited

/-- The texture atlas state.  Mirrors Go struct `TextureAtlas` (the
`gl.Texture` handle is an opaque external resource and is not modelled). -/
structure TextureAtlas where
  nodes : List AtlasNode
  data : List Nat
  used : Nat
  width : Int
  height : Int
  depth : Int
deriving DecidableEq, Repr, Inhabited

/-- `NewTextureAtlas` creates a new texture atlas (Go `NewTextureAtlas`).
`none` models the Go panic on an invalid depth value, or `make` with a
negative length. -/
def NewTextureAtlas (width height depth : Int) : Option TextureAtlas :=
  if depth = 1 ∨ depth = 3 ∨ depth = 4 then
    if 0 ≤ width * height * depth then
      some ⟨[⟨1, 1, width - 2⟩], List.replicate (width * height * depth).toNat 0,
            0, width, height, depth⟩
    else none
  else none

/-- `Release` clears all atlas resources (Go `TextureAtlas.Release`). -/
def TextureAtlas.Release (_a : TextureAtlas) : TextureAtlas :=
  ⟨[], [], 0, 0, 0, 0⟩

/-- `Clear` removes all allocated regions from the atlas (Go
`TextureAtlas.Clear`).  `none` models the Go panic of `a.nodes[:1]` when
the node slice is empty (e.g. after `Release`). -/
def TextureAtlas.Clear (a : TextureAtlas) : Option TextureAtlas :=
  match a.nodes with
  | [] => none
  | _ :: _ =>
      some ⟨[⟨1, 1, a.width - 2⟩], List.replicate a.data.length 0,
            0, a.width, a.height, a.depth⟩

/-- The scanning loop of Go `TextureAtlas.fit`: starting from the node
list suffix `ns`, accumulate the maximum `y` over consecutive nodes until
`remainder` pixels of width are covered.  Returns `some (-1)` when the
rectangle would exceed the atlas height (`y + hgt > hlim - 1`), `none`
when the node list runs out while `remainder > 0` (a Go index panic). -/
def fitLoop (hgt hlim : Int) : List AtlasNode → Int → Int → Option Int
  | [], remainder, y => if remainder ≤ 0 then some y else none
  | n :: rest, remainder, y =>
      if remainder ≤ 0 then some y
      else
        let y1 := if n.y > y then n.y else y
        if y1 + hgt > hlim - 1 then some (-1)
        else fitLoop hgt hlim rest (remainder - n.z) y1

/-- `fit` checks if the given dimensions fit in the node at `index`
(Go `TextureAtlas.fit`).  `none` models the Go index panic when `index`
is out of range. -/
def TextureAtlas.fit (a : TextureAtlas) (index : Nat) (width height : Int) : Option Int :=
  match a.nodes.drop index with
  | [] => none
  | n :: rest =>
      if n.x + width > a.width - 1 then some (-1)
      else fitLoop height a.height (n :: rest) width n.y

/-- Accumulator of the best-fit scan in Go `TextureAtlas.Allocate`:
`bestIndex = none` models the Go sentinel `-1`. -/
structure BestSt where
  bestIndex : Option Nat
  bestWidth : Int
  bestHeight : Int
  rX : Int
  rY : Int
deriving DecidableEq, Repr

/-- The best-fit scan of Go `TextureAtlas.Allocate`: for each candidate
index, compute `fit`; skip negative results; otherwise select the
placement minimizing the resulting top edge `y + h`, tie-broken by the
narrower originating node width. -/
def allocFold (a : TextureAtlas) (w h : Int) : List Nat → BestSt → Option BestSt
  | [], st => some st
  | i :: rest, st =>
      match a.fit i w h with
      | none => none
      | some y =>
          if y < 0 then allocFold a w h rest st
          else
            let node := a.nodes.getD i ⟨0, 0, 0⟩
            if y + h < st.bestHeight ∨ (y + h = st.bestHeight ∧ node.z < st.bestWidth) then
              allocFold a w h rest ⟨some i, node.z, y + h, node.x, y⟩
            else allocFold a w h rest st

/-- The node-adjustment loop of Go `TextureAtlas.Allocate` after inserting
the new node: `e` is the right edge of the inserted node.  Each following
node overlapped by the new node is shrunk (its `x` advanced to `e`); when
its width drops to zero or below it is removed; the walk stops at the
first node starting at or beyond `e`. -/
def adjustLoop (e : Int) : List AtlasNode → List AtlasNode
  | [] => []
  | c :: rest =>
      if c.x ≥ e then c :: rest
      else
        let c1 : AtlasNode := ⟨e, c.y, c.z - (e - c.x)⟩
        if c1.z > 0 then c1 :: rest
        else adjustLoop e rest

/-- The scan of Go `TextureAtlas.merge`, with `cur` the node currently at
position `i`: when `cur` and its right neighbour share the same `y` they
are fused (widths summed, left `x` kept) and the scan re-checks the fused
position (Go `i--`); otherwise `cur` is final and the scan advances. -/
def mergeLoop (cur : AtlasNode) : List AtlasNode → List AtlasNode
  | [] => [cur]
  | m :: rest =>
      if cur.y = m.y then mergeLoop ⟨cur.x, cur.y, cur.z + m.z⟩ rest
      else cur :: mergeLoop m rest

/-- `merge` merges horizontally adjacent nodes with equal `y`
(Go `TextureAtlas.merge`). -/
def merge : List AtlasNode → List AtlasNode
  | [] => []
  | n :: rest => mergeLoop n rest

/-- `Allocate` allocates a new region of the given dimensions in the atlas
(Go `TextureAtlas.Allocate`).  Returns the region, the success flag, and
the updated atlas; `none` models a Go panic inside `fit`.  On failure the
atlas is returned unchanged together with the zero-position region. -/
def TextureAtlas.Allocate (a : TextureAtlas) (w h : Int) :
    Option (AtlasRegion × Bool × TextureAtlas) :=
  match allocFold a w h (List.range a.nodes.length) ⟨none, 2147483647, 2147483647, 0, 0⟩ with
  | none => none
  | some st =>
      match st.bestIndex with
      | none => some (⟨0, 0, w, h⟩, false, a)
      | some bi =>
          let newNode : AtlasNode := ⟨st.rX, st.rY + h, w⟩
          let nodes2 := a.nodes.take bi ++
            newNode :: adjustLoop (newNode.x + newNode.z) (a.nodes.drop bi)
          some (⟨st.rX, st.rY, w, h⟩, true,
            ⟨merge nodes2, a.data,
             (a.used + ((w * h).emod (2 ^ 64)).toNat) % 2 ^ 64,
             a.width, a.height, a.depth⟩)

/-- Go `copy(dst[dp:dp+len(chunk)], chunk)` where both slices have exactly
the chunk's length: splice `chunk` into `dst` at offset `dp`. -/
def copySlice (dst : List Nat) (dp : Nat) (chunk : List Nat) : List Nat :=
  dst.take dp ++ chunk ++ dst.drop (dp + chunk.length)

/-- The destination offset of row `i` in Go `TextureAtlas.Set`:
`dp := ((y+i)*a.width + x) * depth`. -/
def rowOff (awidth adepth x y : Int) (i : Nat) : Int :=
  ((y + (i : Int)) * awidth + x) * adepth

/-- One row of Go `TextureAtlas.Set`: copy `stride` bytes of row `i` from
`src` into the buffer at destination offset `rowOff` (the Go
`((y+i)*a.width + x) * depth`).  `none` models the Go slicing panic when
either slice is out of range. -/
def setRow (awidth adepth x y stride : Int) (src : List Nat)
    (dst : List Nat) (i : Nat) : Option (List Nat) :=
  let dp := rowOff awidth adepth x y i
  let sp := (i : Int) * stride
  if 0 ≤ dp ∧ 0 ≤ stride ∧ 0 ≤ sp ∧ dp + stride ≤ (dst.length : Int) ∧
      sp + stride ≤ (src.length : Int) then
    some (copySlice dst dp.toNat ((src.drop sp.toNat).take stride.toNat))
  else none

/-- `Set` pastes the given data into the atlas buffer at the given
coordinates (Go `TextureAtlas.Set`): `region.H` rows are copied, each of
`stride` bytes.  `none` models a Go slicing panic. -/
def TextureAtlas.Set (a : TextureAtlas) (region : AtlasRegion) (src : List Nat)
    (stride : Int) : Option TextureAtlas :=
  match (List.range region.H.toNat).foldlM
      (setRow a.width a.depth region.X region.Y stride src) a.data with
  | none => none
  | some d => some ⟨a.nodes, d, a.used, a.width, a.height, a.depth⟩

/-- Reading back `len` bytes of the flat pixel buffer at offset `off`. -/
def readRow (data : List Nat) (off len : Nat) : List Nat :=
  (data.drop off).take len

/-! ## Specification-level predicates -/

/-- `spans s ns t` says the node list `ns` tiles the half-open horizontal
interval `[s, t)` left to right: the first node starts at `s`, each node
starts where the previous one ends, and the last node ends at `t`. -/
def spans : Int → List AtlasNode → Int → Prop
  | s, [], t => s = t
  | s, n :: rest, t => n.x = s ∧ spans (s + n.z) rest t

/-- No two horizontally adjacent nodes share the same `y`. -/
def noAdjY : List AtlasNode → Prop
  | [] => True
  | [_] => True
  | n :: m :: rest => n.y ≠ m.y ∧ noAdjY (m :: rest)

/-- Two regions are disjoint: no pixel `(px, py)` lies in both half-open
rectangles. -/
def rectDisjoint (r1 r2 : AtlasRegion) : Prop :=
  ∀ px py : Int, ¬(r1.X ≤ px ∧ px < r1.X + r1.W ∧ r1.Y ≤ py ∧ py < r1.Y + r1.H ∧
    r2.X ≤ px ∧ px < r2.X + r2.W ∧ r2.Y ≤ py ∧ py < r2.Y + r2.H)

/-- Every region of `rs` that horizontally overlaps node `n` lies entirely
below the node's skyline height `n.y`. -/
def NodeAbove (rs : List AtlasRegion) (n : AtlasNode) : Prop :=
  ∀ r ∈ rs, ∀ px : Int, n.x ≤ px → px < n.x + n.z →
    r.X ≤ px → px < r.X + r.W → r.Y + r.H ≤ n.y

/-- Structural invariant of the atlas skyline: the nodes tile
`[1, width - 1)`, all heights are at least 1, the list is nonempty, and
all widths are positive (except in the degenerate `width ≤ 2` atlas, which
still carries its initial single node and never allocates). -/
def InvN (a : TextureAtlas) : Prop :=
  spans 1 a.nodes (a.width - 1) ∧ (∀ n ∈ a.nodes, 1 ≤ n.y) ∧ a.nodes ≠ [] ∧
    ((∀ n ∈ a.nodes, 0 < n.z) ∨ (a.width ≤ 2 ∧ a.nodes = [⟨1, 1, a.width - 2⟩]))

/-- Relation between the atlas and the regions returned so far: returned
regions have positive size, every node's skyline is above every returned
region it overlaps, and the returned regions are pairwise disjoint. -/
def RegInv (a : TextureAtlas) (rs : List AtlasRegion) : Prop :=
  (∀ r ∈ rs, 0 < r.W ∧ 0 < r.H) ∧ (∀ n ∈ a.nodes, NodeAbove rs n) ∧
    List.Pairwise rectDisjoint rs

/-- The states reachable from `NewTextureAtlas width height depth` by
successful `Allocate` calls with positive requested dimensions, together
with the list of regions returned so far (most recent first). -/
inductive ReachedR (width height depth : Int) : TextureAtlas → List AtlasRegion → Prop
  | init (a : TextureAtlas) :
      NewTextureAtlas width height depth = some a → ReachedR width height depth a []
  | step (a : TextureAtlas) (rs : List AtlasRegion) (w h : Int) (r : AtlasRegion)
      (a' : TextureAtlas) :
      ReachedR width height depth a rs → 0 < w → 0 < h →
      a.Allocate w h = some (r, true, a') → ReachedR width height depth a' (r :: rs)

/-! ## Lemmas about `spans` -/

theorem spans_append {s t : Int} {l1 l2 : List AtlasNode} :
    spans s (l1 ++ l2) t ↔ ∃ m, spans s l1 m ∧ spans m l2 t := by
  induction l1 generalizing s with
  | nil =>
      simp only [List.nil_append, spans]
      exact ⟨fun h => ⟨s, rfl, h⟩, fun ⟨m, hm, h⟩ => hm ▸ h⟩
  | cons n rest ih =>
      constructor
      · rintro ⟨hx, h2⟩
        obtain ⟨m, h1, h3⟩ := ih.mp h2
        exact ⟨m, ⟨hx, h1⟩, h3⟩
      · rintro ⟨m, ⟨hx, h1⟩, h2⟩
        exact ⟨hx, ih.mpr ⟨m, h1, h2⟩⟩

theorem spans_le {s t : Int} {ns : List AtlasNode} (hs : spans s ns t)
    (hz : ∀ n ∈ ns, 0 < n.z) : s ≤ t := by
  induction ns generalizing s with
  | nil => simp only [spans] at hs; omega
  | cons c rest ih =>
      obtain ⟨-, h2⟩ := hs
      have h3 := ih h2 (fun m hm => hz m (List.mem_cons_of_mem _ hm))
      have h4 := hz c (List.mem_cons_self _ _)
      omega

theorem spans_mem_bounds {s t : Int} {ns : List AtlasNode} (hs : spans s ns t)
    (hz : ∀ n ∈ ns, 0 < n.z) : ∀ n ∈ ns, s ≤ n.x ∧ n.x + n.z ≤ t := by
  induction ns generalizing s with
  | nil => simp
  | cons c rest ih =>
      obtain ⟨hcx, h2⟩ := hs
      intro n hn
      have hztail : ∀ m ∈ rest, 0 < m.z := fun m hm => hz m (List.mem_cons_of_mem _ hm)
      rcases List.mem_cons.mp hn with rfl | hn
      · have h3 := spans_le h2 hztail
        omega
      · have h3 := ih h2 hztail n hn
        have h4 := hz c (List.mem_cons_self _ _)
        omega

theorem spans_cover {s t : Int} {ns : List AtlasNode} (hs : spans s ns t)
    (hz : ∀ n ∈ ns, 0 < n.z) :
    ∀ px : Int, s ≤ px → px < t → ∃ n ∈ ns, n.x ≤ px ∧ px < n.x + n.z := by
  induction ns generalizing s with
  | nil =>
      simp only [spans] at hs
      intro px h1 h2
      exact absurd h2 (by omega)
  | cons c rest ih =>
      obtain ⟨hcx, hrest⟩ := hs
      intro px h1 h2
      by_cases hpx : px < s + c.z
      · exact ⟨c, List.mem_cons_self _ _, by omega, by omega⟩
      · obtain ⟨n, hn, hb⟩ := ih hrest
          (fun m hm => hz m (List.mem_cons_of_mem _ hm)) px (by omega) h2
        exact ⟨n, List.mem_cons_of_mem _ hn, hb⟩

theorem spans_split {s t : Int} {ns : List AtlasNode} (hs : spans s ns t) {bi : Nat}
    (hbi : bi < ns.length) :
    spans s (ns.take bi) ns[bi].x ∧ spans (ns[bi].x) (ns.drop bi) t := by
  have h := (@spans_append s t (ns.take bi) (ns.drop bi)).mp
    (by rwa [List.take_append_drop])
  obtain ⟨m, h1, h2⟩ := h
  have hd : ns.drop bi = ns[bi] :: ns.drop (bi + 1) := List.drop_eq_getElem_cons hbi
  rw [hd] at h2
  obtain ⟨hx, h3⟩ := h2
  subst hx
  exact ⟨h1, by rw [hd]; exact ⟨rfl, h3⟩⟩

/-! ## Lemmas about `fitLoop` and `fit` -/

theorem fitLoop_stop {hgt hlim rem y : Int} (ns : List AtlasNode) (h : rem ≤ 0) :
    fitLoop hgt hlim ns rem y = some y := by
  cases ns <;> simp [fitLoop, h]

theorem fitLoop_mono {hgt hlim : Int} {ns : List AtlasNode} :
    ∀ {rem y0 y : Int}, fitLoop hgt hlim ns rem y0 = some y → y = -1 ∨ y0 ≤ y := by
  induction ns with
  | nil =>
      intro rem y0 y h
      by_cases hr : rem ≤ 0
      · rw [fitLoop_stop _ hr] at h
        exact Or.inr (le_of_eq (Option.some.inj h))
      · simp [fitLoop, hr] at h
  | cons c rest ih =>
      intro rem y0 y h
      by_cases hr : rem ≤ 0
      · rw [fitLoop_stop _ hr] at h
        exact Or.inr (le_of_eq (Option.some.inj h))
      · simp only [fitLoop, if_neg hr] at h
        by_cases htall : (if c.y > y0 then c.y else y0) + hgt > hlim - 1
        · rw [if_pos htall] at h
          exact Or.inl (Option.some.inj h).symm
        · rw [if_neg htall] at h
          have hy01 : y0 ≤ if c.y > y0 then c.y else y0 := by split <;> omega
          rcases ih h with h1 | h1
          · exact Or.inl h1
          · exact Or.inr (le_trans hy01 h1)

theorem fitLoop_height {hgt hlim : Int} {ns : List AtlasNode} :
    ∀ {rem y0 y : Int}, 0 < rem → fitLoop hgt hlim ns rem y0 = some y → 0 ≤ y →
      y + hgt ≤ hlim - 1 := by
  induction ns with
  | nil =>
      intro rem y0 y hrem h hy
      simp [fitLoop, show ¬rem ≤ 0 by omega] at h
  | cons c rest ih =>
      intro rem y0 y hrem h hy
      have hr : ¬rem ≤ 0 := by omega
      simp only [fitLoop, if_neg hr] at h
      by_cases htall : (if c.y > y0 then c.y else y0) + hgt > hlim - 1
      · rw [if_pos htall] at h
        have := (Option.some.inj h).symm
        omega
      · rw [if_neg htall] at h
        by_cases hr2 : rem - c.z ≤ 0
        · rw [fitLoop_stop _ hr2] at h
          have heq := Option.some.inj h
          rw [heq] at htall
          omega
        · exact ih (by omega) h hy

theorem fitLoop_covers {hgt hlim t : Int} {ns : List AtlasNode} :
    ∀ {s rem y0 y : Int}, spans s ns t → (∀ n ∈ ns, 0 < n.z) →
      fitLoop hgt hlim ns rem y0 = some y → 0 ≤ y →
      ∀ n ∈ ns, n.x < s + rem → n.y ≤ y := by
  induction ns with
  | nil => simp
  | cons c rest ih =>
      intro s rem y0 y hs hz h hy
      have hcx : c.x = s := hs.1
      have hrest : spans (s + c.z) rest t := hs.2
      by_cases hr : rem ≤ 0
      · intro n hn hnx
        have hb := spans_mem_bounds hs hz n hn
        omega
      · simp only [fitLoop, if_neg hr] at h
        by_cases htall : (if c.y > y0 then c.y else y0) + hgt > hlim - 1
        · rw [if_pos htall] at h
          have := (Option.some.inj h).symm
          omega
        · rw [if_neg htall] at h
          intro n hn hnx
          have hy1 : (if c.y > y0 then c.y else y0) ≤ y := by
            rcases fitLoop_mono h with h1 | h1
            · exact absurd hy (by omega)
            · exact h1
          rcases List.mem_cons.mp hn with rfl | hn2
          · have hcy : n.y ≤ if n.y > y0 then n.y else y0 := by split <;> omega
            exact le_trans hcy hy1
          · exact ih hrest (fun m hm => hz m (List.mem_cons_of_mem _ hm)) h hy n hn2
              (by omega)

theorem fit_eq {a : TextureAtlas} {bi : Nat} {w h : Int} (hbi : bi < a.nodes.length) :
    a.fit bi w h =
      if a.nodes[bi].x + w > a.width - 1 then some (-1)
      else fitLoop h a.height (a.nodes[bi] :: a.nodes.drop (bi + 1)) w (a.nodes[bi].y) := by
  unfold TextureAtlas.fit
  rw [List.drop_eq_getElem_cons hbi]

theorem fit_spec {a : TextureAtlas} {bi : Nat} {w h y : Int}
    (hbi : bi < a.nodes.length) (hfit : a.fit bi w h = some y) (hy : 0 ≤ y)
    (hw : 0 < w) :
    a.nodes[bi].x + w ≤ a.width - 1 ∧ a.nodes[bi].y ≤ y ∧ y + h ≤ a.height - 1 ∧
      (∀ t : Int, spans (a.nodes[bi].x) (a.nodes.drop bi) t →
        (∀ n ∈ a.nodes.drop bi, 0 < n.z) →
        ∀ n ∈ a.nodes.drop bi, n.x < a.nodes[bi].x + w → n.y ≤ y) := by
  rw [fit_eq hbi] at hfit
  by_cases hxc : a.nodes[bi].x + w > a.width - 1
  · rw [if_pos hxc] at hfit
    have := (Option.some.inj hfit).symm
    omega
  · rw [if_neg hxc, ← List.drop_eq_getElem_cons hbi] at hfit
    refine ⟨by omega, ?_, ?_, ?_⟩
    · rcases fitLoop_mono hfit with h1 | h1
      · omega
      · exact h1
    · exact fitLoop_height hw hfit hy
    · intro t hsp hz n hn hnx
      exact fitLoop_covers hsp hz hfit hy n hn hnx

/-! ## Lemmas about `adjustLoop` -/

theorem adjustLoop_spans {e t : Int} {ns : List AtlasNode} :
    ∀ {s : Int}, spans s ns t → s ≤ e → e ≤ t → spans e (adjustLoop e ns) t := by
  induction ns with
  | nil =>
      intro s hs hse het
      simp only [spans] at hs
      simp only [adjustLoop, spans]
      omega
  | cons c rest ih =>
      intro s hs hse het
      have hcx : c.x = s := hs.1
      have hrest : spans (s + c.z) rest t := hs.2
      simp only [adjustLoop]
      by_cases hce : c.x ≥ e
      · rw [if_pos hce]
        have hes : e = s := by omega
        exact hes ▸ hs
      · rw [if_neg hce]
        by_cases hz1 : c.z - (e - c.x) > 0
        · rw [if_pos hz1]
          refine ⟨rfl, ?_⟩
          have harith : e + (c.z - (e - c.x)) = s + c.z := by omega
          rw [harith]
          exact hrest
        · rw [if_neg hz1]
          exact ih hrest (by omega) het

theorem adjustLoop_mem {e : Int} {ns : List AtlasNode} :
    ∀ n' ∈ adjustLoop e ns, n' ∈ ns ∨
      ∃ n ∈ ns, n'.x = e ∧ n'.y = n.y ∧ 0 < n'.z ∧ n.x ≤ n'.x ∧
        n'.x + n'.z = n.x + n.z := by
  induction ns with
  | nil => simp [adjustLoop]
  | cons c rest ih =>
      intro n' hn'
      simp only [adjustLoop] at hn'
      by_cases hce : c.x ≥ e
      · rw [if_pos hce] at hn'
        exact Or.inl hn'
      · rw [if_neg hce] at hn'
        by_cases hz1 : c.z - (e - c.x) > 0
        · rw [if_pos hz1] at hn'
          rcases List.mem_cons.mp hn' with rfl | hmem
          · refine Or.inr ⟨c, List.mem_cons_self _ _, rfl, rfl, ?_, ?_, ?_⟩ <;>
              simp only <;> omega
          · exact Or.inl (List.mem_cons_of_mem _ hmem)
        · rw [if_neg hz1] at hn'
          rcases ih n' hn' with hmem | ⟨n, hn, hrest⟩
          · exact Or.inl (List.mem_cons_of_mem _ hmem)
          · exact Or.inr ⟨n, List.mem_cons_of_mem _ hn, hrest⟩

/-! ## Lemmas about `merge` -/

theorem mergeLoop_spans {t : Int} : ∀ (ns : List AtlasNode) (cur : AtlasNode) {s : Int},
    spans s (cur :: ns) t → spans s (mergeLoop cur ns) t := by
  intro ns
  induction ns with
  | nil => intro cur s hs; exact hs
  | cons m rest ih =>
      intro cur s hs
      have hcx : cur.x = s := hs.1
      have hmx : m.x = s + cur.z := hs.2.1
      have hrest : spans (s + cur.z + m.z) rest t := hs.2.2
      by_cases hy : cur.y = m.y
      · rw [mergeLoop, if_pos hy]
        refine ih _ ?_
        refine ⟨hcx, ?_⟩
        have harith : s + (cur.z + m.z) = s + cur.z + m.z := by ring
        rw [harith]
        exact hrest
      · rw [mergeLoop, if_neg hy]
        exact ⟨hcx, ih m ⟨hmx, hrest⟩⟩

theorem merge_spans {s t : Int} {ns : List AtlasNode} (hs : spans s ns t) :
    spans s (merge ns) t := by
  cases ns with
  | nil => exact hs
  | cons n rest => exact mergeLoop_spans rest n hs

theorem mergeLoop_ne_nil : ∀ (ns : List AtlasNode) (cur : AtlasNode),
    mergeLoop cur ns ≠ [] := by
  intro ns
  induction ns with
  | nil => intro cur; simp [mergeLoop]
  | cons m rest ih =>
      intro cur
      by_cases hy : cur.y = m.y
      · rw [mergeLoop, if_pos hy]; exact ih _
      · rw [mergeLoop, if_neg hy]; simp

theorem merge_ne_nil {ns : List AtlasNode} (h : ns ≠ []) : merge ns ≠ [] := by
  cases ns with
  | nil => exact absurd rfl h
  | cons n rest => exact mergeLoop_ne_nil rest n

theorem mergeLoop_forall_adj (P : AtlasNode → Prop)
    (hP : ∀ n m : AtlasNode, m.x = n.x + n.z → n.y = m.y → P n → P m →
      P ⟨n.x, n.y, n.z + m.z⟩) {t : Int} :
    ∀ (ns : List AtlasNode) (cur : AtlasNode) {s : Int}, spans s (cur :: ns) t →
      P cur → (∀ n ∈ ns, P n) → ∀ n' ∈ mergeLoop cur ns, P n' := by
  intro ns
  induction ns with
  | nil =>
      intro cur s _ hcur _ n' hn'
      rcases List.mem_cons.mp hn' with rfl | h
      · exact hcur
      · simp at h
  | cons m rest ih =>
      intro cur s hs hcur hall
      have hcx : cur.x = s := hs.1
      have hmx : m.x = s + cur.z := hs.2.1
      have hrest : spans (s + cur.z + m.z) rest t := hs.2.2
      by_cases hy : cur.y = m.y
      · rw [mergeLoop, if_pos hy]
        have hPm : P m := hall m (List.mem_cons_self _ _)
        have hfused : P ⟨cur.x, cur.y, cur.z + m.z⟩ := hP cur m (by omega) hy hcur hPm
        have hs' : spans s ((⟨cur.x, cur.y, cur.z + m.z⟩ : AtlasNode) :: rest) t := by
          refine ⟨hcx, ?_⟩
          have harith : s + (cur.z + m.z) = s + cur.z + m.z := by ring
          rw [harith]
          exact hrest
        exact ih _ hs' hfused (fun p hp => hall p (List.mem_cons_of_mem _ hp))
      · rw [mergeLoop, if_neg hy]
        intro n' hn'
        rcases List.mem_cons.mp hn' with rfl | hn2
        · exact hcur
        · exact ih m ⟨hmx, hrest⟩ (hall m (List.mem_cons_self _ _))
            (fun p hp => hall p (List.mem_cons_of_mem _ hp)) n' hn2

theorem merge_forall_adj (P : AtlasNode → Prop)
    (hP : ∀ n m : AtlasNode, m.x = n.x + n.z → n.y = m.y → P n → P m →
      P ⟨n.x, n.y, n.z + m.z⟩) {s t : Int} {ns : List AtlasNode}
    (hs : spans s ns t) (hall : ∀ n ∈ ns, P n) : ∀ n' ∈ merge ns, P n' := by
  cases ns with
  | nil => simp [merge]
  | cons n rest =>
      exact mergeLoop_forall_adj P hP rest n hs (hall n (List.mem_cons_self _ _))
        (fun p hp => hall p (List.mem_cons_of_mem _ hp))

theorem mergeLoop_head : ∀ (ns : List AtlasNode) (cur : AtlasNode),
    ∃ (z : Int) (l' : List AtlasNode), mergeLoop cur ns = ⟨cur.x, cur.y, z⟩ :: l' := by
  intro ns
  induction ns with
  | nil => intro cur; exact ⟨cur.z, [], by cases cur; simp [mergeLoop]⟩
  | cons m rest ih =>
      intro cur
      by_cases hy : cur.y = m.y
      · rw [mergeLoop, if_pos hy]
        exact ih _
      · rw [mergeLoop, if_neg hy]
        exact ⟨cur.z, mergeLoop m rest, by cases cur; simp⟩

theorem mergeLoop_noAdj : ∀ (ns : List AtlasNode) (cur : AtlasNode),
    noAdjY (mergeLoop cur ns) := by
  intro ns
  induction ns with
  | nil => intro cur; simp [mergeLoop, noAdjY]
  | cons m rest ih =>
      intro cur
      by_cases hy : cur.y = m.y
      · rw [mergeLoop, if_pos hy]
        exact ih _
      · rw [mergeLoop, if_neg hy]
        obtain ⟨z, l', hl⟩ := mergeLoop_head rest m
        have htail := ih m
        rw [hl] at htail ⊢
        exact ⟨hy, htail⟩

theorem merge_noAdj (ns : List AtlasNode) : noAdjY (merge ns) := by
  cases ns with
  | nil => simp [merge, noAdjY]
  | cons n rest => exact mergeLoop_noAdj rest n

theorem noAdjY_getD : ∀ (ns : List AtlasNode), noAdjY ns →
    ∀ i : Nat, i + 1 < ns.length →
      (ns.getD i ⟨0, 0, 0⟩).y ≠ (ns.getD (i + 1) ⟨0, 0, 0⟩).y
  | [], _, i, hi => by simp at hi
  | [n], _, i, hi => by simp at hi
  | n :: m :: rest, hadj, i, hi => by
      match i with
      | 0 => exact hadj.1
      | i + 1 =>
          have := noAdjY_getD (m :: rest) hadj.2 i (by simpa using hi)
          simpa using this

/-! ## Lemmas about `allocFold` and `Allocate` -/

/-- Soundness of the best-fit scan accumulator: whenever a best index has
been recorded, it is in range, its `fit` value is the recorded `rY ≥ 0`,
and `rX` is the corresponding node's left edge. -/
def StOk (a : TextureAtlas) (w h : Int) (st : BestSt) : Prop :=
  ∀ bi ∈ st.bestIndex, bi < a.nodes.length ∧ a.fit bi w h = some st.rY ∧
    0 ≤ st.rY ∧ st.rX = (a.nodes.getD bi ⟨0, 0, 0⟩).x

theorem allocFold_ok {a : TextureAtlas} {w h : Int} :
    ∀ {l : List Nat} {st st' : BestSt}, (∀ i ∈ l, i < a.nodes.length) →
      StOk a w h st → allocFold a w h l st = some st' → StOk a w h st' := by
  intro l
  induction l with
  | nil =>
      intro st st' _ hst hrun
      simp only [allocFold] at hrun
      exact (Option.some.inj hrun) ▸ hst
  | cons i rest ih =>
      intro st st' hl hst hrun
      have hlrest : ∀ j ∈ rest, j < a.nodes.length :=
        fun j hj => hl j (List.mem_cons_of_mem _ hj)
      cases hfit : a.fit i w h with
      | none => simp [allocFold, hfit] at hrun
      | some y =>
          simp only [allocFold, hfit] at hrun
          by_cases hy : y < 0
          · rw [if_pos hy] at hrun
            exact ih hlrest hst hrun
          · rw [if_neg hy] at hrun
            by_cases hcond : y + h < st.bestHeight ∨
                (y + h = st.bestHeight ∧ (a.nodes.getD i ⟨0, 0, 0⟩).z < st.bestWidth)
            · rw [if_pos hcond] at hrun
              refine ih hlrest ?_ hrun
              intro bi hbi
              rw [Option.mem_def] at hbi
              dsimp only at hbi ⊢
              rw [Option.some.injEq] at hbi
              subst hbi
              exact ⟨hl i (List.mem_cons_self _ _), hfit, by omega, rfl⟩
            · rw [if_neg hcond] at hrun
              exact ih hlrest hst hrun

theorem allocFold_skip {a : TextureAtlas} {w h : Int} :
    ∀ {l : List Nat} {st : BestSt}, (∀ i ∈ l, a.fit i w h = some (-1)) →
      allocFold a w h l st = some st := by
  intro l
  induction l with
  | nil => intro st _; rfl
  | cons i rest ih =>
      intro st hl
      have hfit := hl i (List.mem_cons_self _ _)
      simp only [allocFold, hfit]
      rw [if_pos (by omega : (-1 : Int) < 0)]
      exact ih (fun j hj => hl j (List.mem_cons_of_mem _ hj))

theorem allocate_fail {a a' : TextureAtlas} {w h : Int} {r : AtlasRegion}
    (hall : a.Allocate w h = some (r, false, a')) :
    a' = a ∧ r = ⟨0, 0, w, h⟩ := by
  unfold TextureAtlas.Allocate at hall
  split at hall
  · exact absurd hall (by simp)
  · split at hall
    · simp only [Option.some.injEq, Prod.mk.injEq] at hall
      exact ⟨hall.2.2.symm, hall.1.symm⟩
    · simp at hall

theorem allocate_succ {a a' : TextureAtlas} {w h : Int} {r : AtlasRegion}
    (hall : a.Allocate w h = some (r, true, a')) :
    ∃ bi : Nat, bi < a.nodes.length ∧ a.fit bi w h = some r.Y ∧ 0 ≤ r.Y ∧
      r.X = (a.nodes.getD bi ⟨0, 0, 0⟩).x ∧ r.W = w ∧ r.H = h ∧
      a'.nodes = merge (a.nodes.take bi ++
        (⟨r.X, r.Y + h, w⟩ : AtlasNode) :: adjustLoop (r.X + w) (a.nodes.drop bi)) ∧
      a'.data = a.data ∧ a'.width = a.width ∧ a'.height = a.height ∧
      a'.depth = a.depth := by
  unfold TextureAtlas.Allocate at hall
  split at hall
  · exact absurd hall (by simp)
  next st hfold =>
    split at hall
    · simp at hall
    next bi hbi =>
      simp only [Option.some.injEq, Prod.mk.injEq] at hall
      obtain ⟨hreg, -, ha'⟩ := hall
      subst hreg
      subst ha'
      have hok := allocFold_ok (fun i hi => List.mem_range.mp hi)
        (by intro j hj; simp at hj) hfold
      obtain ⟨hbilt, hfit, hrY, hrX⟩ := hok bi (by rw [Option.mem_def, hbi])
      exact ⟨bi, hbilt, hfit, hrY, hrX, rfl, rfl, rfl, rfl, rfl, rfl, rfl⟩

theorem fit_reject {a : TextureAtlas} {i : Nat} {w h : Int} (hi : i < a.nodes.length)
    (hx : 1 ≤ a.nodes[i].x) (hy : 1 ≤ a.nodes[i].y) (hw : 0 < w)
    (hbig : a.width - 2 < w ∨ a.height - 2 < h) :
    a.fit i w h = some (-1) := by
  rw [fit_eq hi]
  by_cases hxc : a.nodes[i].x + w > a.width - 1
  · rw [if_pos hxc]
  · rw [if_neg hxc]
    have hbh : a.height - 2 < h := by
      rcases hbig with hb | hb
      · omega
      · exact hb
    simp only [fitLoop]
    rw [if_neg (by omega : ¬w ≤ 0), ite_self, if_pos (by omega :
      a.nodes[i].y + h > a.height - 1)]

theorem allocate_reject {a : TextureAtlas} {w h : Int} (hinv : InvN a) (hw : 0 < w)
    (hbig : a.width - 2 < w ∨ a.height - 2 < h) :
    a.Allocate w h = some (⟨0, 0, w, h⟩, false, a) := by
  obtain ⟨hspans, hys, hne, hzd⟩ := hinv
  have hfits : ∀ i ∈ List.range a.nodes.length, a.fit i w h = some (-1) := by
    intro i hi
    have hlt := List.mem_range.mp hi
    rcases hzd with hzpos | ⟨hwid, hdeg⟩
    · refine fit_reject hlt ?_ ?_ hw hbig
      · exact (spans_mem_bounds hspans hzpos _ (List.getElem_mem hlt)).1
      · exact hys _ (List.getElem_mem hlt)
    · have hi0 : i = 0 := by rw [hdeg] at hlt; simpa using hlt
      subst hi0
      refine fit_reject hlt ?_ ?_ hw (Or.inl (by omega))
      · simp [hdeg]
      · simp [hdeg]
  unfold TextureAtlas.Allocate
  rw [allocFold_skip hfits]

theorem nodeAbove_fuse {rs : List AtlasRegion} {n m : AtlasNode}
    (hadj : m.x = n.x + n.z) (hy : n.y = m.y) (h1 : NodeAbove rs n)
    (h2 : NodeAbove rs m) : NodeAbove rs ⟨n.x, n.y, n.z + m.z⟩ := by
  intro r hr px hx1 hx2 h3 h4
  dsimp only at hx1 hx2 ⊢
  by_cases hpx : px < n.x + n.z
  · exact h1 r hr px hx1 hpx h3 h4
  · have h5 := h2 r hr px (by omega) (by omega) h3 h4
    omega

theorem allocate_preserve {a a' : TextureAtlas} {rs : List AtlasRegion} {w h : Int}
    {r : AtlasRegion}
    (hinv : InvN a) (hreg : RegInv a rs) (hw : 0 < w) (hh : 0 < h)
    (hall : a.Allocate w h = some (r, true, a')) :
    InvN a' ∧ RegInv a' (r :: rs) ∧
      1 ≤ r.X ∧ 1 ≤ r.Y ∧ r.X + r.W ≤ a.width - 1 ∧ r.Y + r.H ≤ a.height - 1 ∧
      a'.width = a.width ∧ a'.height = a.height ∧ a'.depth = a.depth ∧
      a'.data = a.data := by
  obtain ⟨hspans, hys, hne, hzd⟩ := hinv
  rcases hzd with hzpos | ⟨hwid, hdeg⟩
  swap
  · have hrej : a.Allocate w h = some (⟨0, 0, w, h⟩, false, a) :=
      allocate_reject ⟨hspans, hys, hne, Or.inr ⟨hwid, hdeg⟩⟩ hw (Or.inl (by omega))
    rw [hrej] at hall
    simp at hall
  obtain ⟨bi, hbi, hfit, hrY, hrX, hrW, hrH, hnodes', hdata', hwidth', hheight', hdepth'⟩ :=
    allocate_succ hall
  rw [List.getD_eq_getElem _ _ hbi] at hrX
  have hsplit := spans_split hspans hbi
  have hzdrop : ∀ n ∈ a.nodes.drop bi, 0 < n.z :=
    fun n hn => hzpos n (List.drop_subset _ _ hn)
  have hztake : ∀ n ∈ a.nodes.take bi, 0 < n.z :=
    fun n hn => hzpos n (List.take_subset _ _ hn)
  obtain ⟨hxe, hndy, hyh, hcov⟩ := fit_spec hbi hfit hrY hw
  have hcovers := hcov (a.width - 1) hsplit.2 hzdrop
  have hndb := spans_mem_bounds hspans hzpos _ (List.getElem_mem hbi)
  have hndy1 : 1 ≤ a.nodes[bi].y := hys _ (List.getElem_mem hbi)
  have hstake : spans 1 (a.nodes.take bi) r.X := by rw [hrX]; exact hsplit.1
  have hsdrop : spans r.X (a.nodes.drop bi) (a.width - 1) := by
    rw [hrX]; exact hsplit.2
  have hspadj : spans (r.X + w) (adjustLoop (r.X + w) (a.nodes.drop bi)) (a.width - 1) :=
    adjustLoop_spans hsdrop (by omega) (by omega)
  have hzadj : ∀ q ∈ adjustLoop (r.X + w) (a.nodes.drop bi), 0 < q.z := by
    intro q hq
    rcases adjustLoop_mem _ hq with hmem | ⟨p, hp, -, -, hz', -, -⟩
    · exact hzpos q (List.drop_subset _ _ hmem)
    · exact hz'
  have hsp2 : spans 1 (a.nodes.take bi ++
      (⟨r.X, r.Y + h, w⟩ : AtlasNode) :: adjustLoop (r.X + w) (a.nodes.drop bi))
      (a.width - 1) :=
    spans_append.mpr ⟨r.X, hstake, ⟨rfl, hspadj⟩⟩
  have hPnodes2 : ∀ n ∈ a.nodes.take bi ++
      (⟨r.X, r.Y + h, w⟩ : AtlasNode) :: adjustLoop (r.X + w) (a.nodes.drop bi),
      1 ≤ n.y ∧ 0 < n.z := by
    intro n hn
    rcases List.mem_append.mp hn with htk | hcons
    · exact ⟨hys n (List.take_subset _ _ htk), hzpos n (List.take_subset _ _ htk)⟩
    · rcases List.mem_cons.mp hcons with rfl | hadj2
      · exact ⟨by dsimp only; omega, by dsimp only; omega⟩
      · rcases adjustLoop_mem _ hadj2 with hmem | ⟨p, hp, -, hy', hz', -, -⟩
        · exact ⟨hys n (List.drop_subset _ _ hmem), hzpos n (List.drop_subset _ _ hmem)⟩
        · refine ⟨?_, hz'⟩
          rw [hy']
          exact hys p (List.drop_subset _ _ hp)
  have hPmerged := merge_forall_adj (fun p => 1 ≤ p.y ∧ 0 < p.z)
    (fun p q _ _ hp hq => ⟨hp.1, add_pos hp.2 hq.2⟩) hsp2 hPnodes2
  have hub : ∀ r' ∈ rs, ∀ px : Int, r.X ≤ px → px < r.X + w →
      r'.X ≤ px → px < r'.X + r'.W → r'.Y + r'.H ≤ r.Y := by
    intro r' hr' px hpx1 hpx2 hpx3 hpx4
    obtain ⟨n0, hn0, hn0a, hn0b⟩ := spans_cover hspans hzpos px (by omega) (by omega)
    have hn0drop : n0 ∈ a.nodes.drop bi := by
      rw [← List.take_append_drop bi a.nodes] at hn0
      rcases List.mem_append.mp hn0 with htk | hdp
      · have hb := spans_mem_bounds hstake hztake n0 htk
        omega
      · exact hdp
    have hn0y := hcovers n0 hn0drop (by omega)
    have hn0mem : n0 ∈ a.nodes := List.drop_subset _ _ hn0drop
    exact le_trans (hreg.2.1 n0 hn0mem r' hr' px hn0a hn0b hpx3 hpx4) hn0y
  have hNA2 : ∀ n ∈ a.nodes.take bi ++
      (⟨r.X, r.Y + h, w⟩ : AtlasNode) :: adjustLoop (r.X + w) (a.nodes.drop bi),
      NodeAbove (r :: rs) n := by
    intro n hn
    rcases List.mem_append.mp hn with htk | hcons
    · intro r' hr' px hpx1 hpx2 hpx3 hpx4
      rcases List.mem_cons.mp hr' with rfl | hr2
      · have hb := spans_mem_bounds hstake hztake n htk
        omega
      · exact hreg.2.1 n (List.take_subset _ _ htk) r' hr2 px hpx1 hpx2 hpx3 hpx4
    · rcases List.mem_cons.mp hcons with rfl | hadj2
      · intro r' hr' px hpx1 hpx2 hpx3 hpx4
        dsimp only at hpx1 hpx2 ⊢
        rcases List.mem_cons.mp hr' with rfl | hr2
        · omega
        · have h6 := hub r' hr2 px hpx1 hpx2 hpx3 hpx4
          omega
      · intro r' hr' px hpx1 hpx2 hpx3 hpx4
        rcases List.mem_cons.mp hr' with rfl | hr2
        · have hb := spans_mem_bounds hspadj hzadj n hadj2
          omega
        · rcases adjustLoop_mem _ hadj2 with hmem | ⟨p, hp, hx', hy', hz', hxle, hsum⟩
          · exact hreg.2.1 n (List.drop_subset _ _ hmem) r' hr2 px hpx1 hpx2 hpx3 hpx4
          · have hsub := hreg.2.1 p (List.drop_subset _ _ hp) r' hr2 px (by omega)
              (by omega) hpx3 hpx4
            omega
  have hNAmerged := merge_forall_adj (NodeAbove (r :: rs))
    (fun p q hadjq hyq hp hq => nodeAbove_fuse hadjq hyq hp hq) hsp2 hNA2
  have hpd : ∀ r' ∈ rs, rectDisjoint r r' := by
    intro r' hr' px py hcontra
    obtain ⟨h1, h2, h3, h4, h5, h6, h7, h8⟩ := hcontra
    have h9 := hub r' hr' px h1 (by omega) h5 h6
    omega
  refine ⟨⟨?_, ?_, ?_, ?_⟩, ⟨?_, ?_, ?_⟩, ?_, ?_, ?_, ?_, hwidth', hheight', hdepth', hdata'⟩
  · rw [hnodes', hwidth']
    exact merge_spans hsp2
  · rw [hnodes']
    intro n hn
    exact (hPmerged n hn).1
  · rw [hnodes']
    exact merge_ne_nil (by simp)
  · refine Or.inl ?_
    rw [hnodes']
    intro n hn
    exact (hPmerged n hn).2
  · intro r' hr'
    rcases List.mem_cons.mp hr' with rfl | hr2
    · exact ⟨by omega, by omega⟩
    · exact hreg.1 r' hr2
  · rw [hnodes']
    exact hNAmerged
  · exact List.pairwise_cons.mpr ⟨hpd, hreg.2.2⟩
  · omega
  · omega
  · omega
  · omega

/-! ## Master invariant over reachable states -/

theorem reached_inv {W H D : Int} {a : TextureAtlas} {rs : List AtlasRegion}
    (hr : ReachedR W H D a rs) :
    InvN a ∧ RegInv a rs ∧ a.width = W ∧ a.height = H ∧ noAdjY a.nodes := by
  induction hr with
  | init a ha =>
      unfold NewTextureAtlas at ha
      by_cases h1 : D = 1 ∨ D = 3 ∨ D = 4
      · rw [if_pos h1] at ha
        by_cases h2 : 0 ≤ W * H * D
        · rw [if_pos h2] at ha
          have ha2 := Option.some.inj ha
          subst ha2
          refine ⟨⟨⟨rfl, by dsimp only [spans]; omega⟩, ?_, by simp, ?_⟩,
            ⟨by simp, ?_, List.Pairwise.nil⟩, rfl, rfl, ?_⟩
          · intro n hn
            rw [List.mem_singleton] at hn
            subst hn
            exact le_refl 1
          · by_cases hW : (3 : Int) ≤ W
            · refine Or.inl ?_
              intro n hn
              rw [List.mem_singleton] at hn
              subst hn
              dsimp only
              omega
            · exact Or.inr ⟨by dsimp only; omega, rfl⟩
          · intro n hn r hr
            simp at hr
          · exact trivial
        · rw [if_neg h2] at ha
          exact absurd ha (by simp)
      · rw [if_neg h1] at ha
        exact absurd ha (by simp)
  | step a rs w h r a' hprev hw hh hall ih =>
      obtain ⟨hinv, hreg, hWeq, hHeq, hadjY⟩ := ih
      obtain ⟨hinv', hreg', -, -, -, -, hw', hh', -, -⟩ :=
        allocate_preserve hinv hreg hw hh hall
      refine ⟨hinv', hreg', by rw [hw', hWeq], by rw [hh', hHeq], ?_⟩
      obtain ⟨bi, -, -, -, -, -, -, hnodes', -, -, -, -⟩ := allocate_succ hall
      rw [hnodes']
      exact merge_noAdj _

/-! ## Indexed consequences of `spans` -/

theorem spans_first {s t : Int} {ns : List AtlasNode} (hs : spans s ns t)
    (hne : ns ≠ []) : (ns.getD 0 ⟨0, 0, 0⟩).x = s := by
  cases ns with
  | nil => exact absurd rfl hne
  | cons n rest => exact hs.1

theorem spans_adj {s t : Int} {ns : List AtlasNode} (hs : spans s ns t) :
    ∀ i : Nat, i + 1 < ns.length →
      (ns.getD i ⟨0, 0, 0⟩).x + (ns.getD i ⟨0, 0, 0⟩).z = (ns.getD (i + 1) ⟨0, 0, 0⟩).x := by
  intro i hi1
  have hi : i < ns.length := by omega
  have hsplit := (spans_split hs hi).2
  rw [List.drop_eq_getElem_cons hi, List.drop_eq_getElem_cons (by omega : i + 1 < ns.length)]
    at hsplit
  have h2 : ns[i + 1].x = ns[i].x + ns[i].z := hsplit.2.1
  rw [List.getD_eq_getElem _ _ hi, List.getD_eq_getElem _ _ (by omega : i + 1 < ns.length)]
  omega

theorem spans_last {s t : Int} {ns : List AtlasNode} (hs : spans s ns t)
    (hne : ns ≠ []) :
    (ns.getD (ns.length - 1) ⟨0, 0, 0⟩).x + (ns.getD (ns.length - 1) ⟨0, 0, 0⟩).z = t := by
  have hlen : 0 < ns.length := List.length_pos.mpr hne
  have hi : ns.length - 1 < ns.length := by omega
  have hsplit := (spans_split hs hi).2
  rw [List.drop_eq_getElem_cons hi] at hsplit
  have hnil : ns.drop (ns.length - 1 + 1) = [] := by
    have : ns.length - 1 + 1 = ns.length := by omega
    rw [this]
    exact List.drop_length ns
  rw [hnil] at hsplit
  have h2 : spans (ns[ns.length - 1].x + ns[ns.length - 1].z) [] t := hsplit.2
  rw [List.getD_eq_getElem _ _ hi]
  exact h2

/-! ## Claim theorems: skyline allocator -/

/-- C1: for every atlas created with `NewTextureAtlas` and every sequence
of successful `Allocate` calls with positive requested dimensions, the node
list is an ordered tiling of `[1, width - 1)`: nonempty, first node at
`x = 1`, each node ends where the next starts (hence strictly ascending
`x`), and the last node ends at `width - 1`. -/
theorem claim_C1 {W H D : Int} {a : TextureAtlas} {rs : List AtlasRegion}
    (hr : ReachedR W H D a rs) :
    a.nodes ≠ [] ∧ (a.nodes.getD 0 ⟨0, 0, 0⟩).x = 1 ∧
      (∀ i : Nat, i + 1 < a.nodes.length →
        (a.nodes.getD i ⟨0, 0, 0⟩).x + (a.nodes.getD i ⟨0, 0, 0⟩).z =
          (a.nodes.getD (i + 1) ⟨0, 0, 0⟩).x ∧
        (a.nodes.getD i ⟨0, 0, 0⟩).x < (a.nodes.getD (i + 1) ⟨0, 0, 0⟩).x) ∧
      (a.nodes.getD (a.nodes.length - 1) ⟨0, 0, 0⟩).x +
        (a.nodes.getD (a.nodes.length - 1) ⟨0, 0, 0⟩).z = W - 1 := by
  obtain ⟨⟨hspans, hys, hne, hzd⟩, -, hWeq, -, -⟩ := reached_inv hr
  subst hWeq
  refine ⟨hne, spans_first hspans hne, ?_, spans_last hspans hne⟩
  intro i hi
  refine ⟨spans_adj hspans i hi, ?_⟩
  have hzi : 0 < (a.nodes.getD i ⟨0, 0, 0⟩).z := by
    rcases hzd with hzpos | ⟨hwid, hdeg⟩
    · have hilt : i < a.nodes.length := by omega
      rw [List.getD_eq_getElem _ _ hilt]
      exact hzpos _ (List.getElem_mem hilt)
    · rw [hdeg] at hi
      simp at hi
  have hadj := spans_adj hspans i hi
  omega

/-- C2: the regions returned by the successful `Allocate` calls performed
since construction are pairwise disjoint. -/
theorem claim_C2 {W H D : Int} {a : TextureAtlas} {rs : List AtlasRegion}
    (hr : ReachedR W H D a rs) : List.Pairwise rectDisjoint rs :=
  (reached_inv hr).2.1.2.2

/-- C3: every region returned by a successful `Allocate w h` with
`w, h > 0` on a reachable atlas satisfies the one-pixel-border bounds. -/
theorem claim_C3 {W H D w h : Int} {a a' : TextureAtlas} {rs : List AtlasRegion}
    {r : AtlasRegion} (hr : ReachedR W H D a rs) (hw : 0 < w) (hh : 0 < h)
    (hall : a.Allocate w h = some (r, true, a')) :
    1 ≤ r.X ∧ 1 ≤ r.Y ∧ r.X + r.W ≤ W - 1 ∧ r.Y + r.H ≤ H - 1 := by
  obtain ⟨hinv, hreg, hWeq, hHeq, -⟩ := reached_inv hr
  obtain ⟨-, -, h1, h2, h3, h4, -, -, -, -⟩ := allocate_preserve hinv hreg hw hh hall
  rw [hWeq] at h3
  rw [hHeq] at h4
  exact ⟨h1, h2, h3, h4⟩

/-- C5: after every `Allocate` call (successful or not) on a reachable
atlas, and after `Clear`, no two horizontally adjacent nodes share the
same `y`. -/
theorem claim_C5 {W H D : Int} {a : TextureAtlas} {rs : List AtlasRegion}
    (hr : ReachedR W H D a rs) :
    (∀ (w h : Int) (r : AtlasRegion) (b : Bool) (a' : TextureAtlas),
      a.Allocate w h = some (r, b, a') →
      ∀ i : Nat, i + 1 < a'.nodes.length →
        (a'.nodes.getD i ⟨0, 0, 0⟩).y ≠ (a'.nodes.getD (i + 1) ⟨0, 0, 0⟩).y) ∧
    (∀ a' : TextureAtlas, a.Clear = some a' →
      ∀ i : Nat, i + 1 < a'.nodes.length →
        (a'.nodes.getD i ⟨0, 0, 0⟩).y ≠ (a'.nodes.getD (i + 1) ⟨0, 0, 0⟩).y) := by
  obtain ⟨-, -, -, -, hadjY⟩ := reached_inv hr
  constructor
  · intro w h r b a' hall i hi
    cases b with
    | true =>
        obtain ⟨bi, -, -, -, -, -, -, hnodes', -, -, -, -⟩ := allocate_succ hall
        rw [hnodes'] at hi ⊢
        exact noAdjY_getD _ (merge_noAdj _) i hi
    | false =>
        obtain ⟨ha, -⟩ := allocate_fail hall
        subst ha
        exact noAdjY_getD _ hadjY i hi
  · intro a' hcl i hi
    unfold TextureAtlas.Clear at hcl
    split at hcl
    · simp at hcl
    · have h2 := Option.some.inj hcl
      subst h2
      simp at hi

/-- C6: on a reachable atlas, a request wider than `width - 2` or taller
than `height - 2` always fails. -/
theorem claim_C6 {W H D w h : Int} {a : TextureAtlas} {rs : List AtlasRegion}
    (hr : ReachedR W H D a rs) (hw : 0 < w) (hh : 0 < h)
    (hbig : W - 2 < w ∨ H - 2 < h) :
    (a.Allocate w h).map (fun p => p.2.1) = some false := by
  obtain ⟨hinv, -, hWeq, hHeq, -⟩ := reached_inv hr
  have hrej : a.Allocate w h = some (⟨0, 0, w, h⟩, false, a) :=
    allocate_reject hinv hw (by rw [hWeq, hHeq]; exact hbig)
  rw [hrej]
  rfl

/-- C9: when `Allocate` fails, the atlas is left exactly as it was: node
list, pixel buffer and used counter are unchanged. -/
theorem claim_C9 {a a' : TextureAtlas} {w h : Int} {r : AtlasRegion}
    (hall : a.Allocate w h = some (r, false, a')) :
    a'.nodes = a.nodes ∧ a'.data = a.data ∧ a'.used = a.used := by
  obtain ⟨ha, -⟩ := allocate_fail hall
  subst ha
  exact ⟨rfl, rfl, rfl⟩

/-! ## Concrete atlases for the witnesses (the spec's 16x16 scenario) -/

def atlasW : TextureAtlas := ⟨[⟨1, 1, 14⟩], List.replicate 256 0, 0, 16, 16, 1⟩

def atlasW1 : TextureAtlas := ⟨[⟨1, 5, 4⟩, ⟨5, 1, 10⟩], List.replicate 256 0, 16, 16, 16, 1⟩

def atlasW2 : TextureAtlas := ⟨[⟨1, 5, 8⟩, ⟨9, 1, 6⟩], List.replicate 256 0, 32, 16, 16, 1⟩

theorem reachedW0 : ReachedR 16 16 1 atlasW [] :=
  ReachedR.init atlasW (by decide)

theorem reachedW1 : ReachedR 16 16 1 atlasW1 [⟨1, 1, 4, 4⟩] :=
  ReachedR.step atlasW [] 4 4 ⟨1, 1, 4, 4⟩ atlasW1 reachedW0
    (by decide) (by decide) (by decide)

theorem reachedW2 : ReachedR 16 16 1 atlasW2 [⟨5, 1, 4, 4⟩, ⟨1, 1, 4, 4⟩] :=
  ReachedR.step atlasW1 [⟨1, 1, 4, 4⟩] 4 4 ⟨5, 1, 4, 4⟩ atlasW2 reachedW1
    (by decide) (by decide) (by decide)

/-- C1 witness: the tiling statement evaluated on the atlas reached by two
concrete allocations. -/
theorem claim_C1_witness :
    atlasW2.nodes ≠ [] ∧ (atlasW2.nodes.getD 0 ⟨0, 0, 0⟩).x = 1 ∧
      (∀ i : Nat, i + 1 < atlasW2.nodes.length →
        (atlasW2.nodes.getD i ⟨0, 0, 0⟩).x + (atlasW2.nodes.getD i ⟨0, 0, 0⟩).z =
          (atlasW2.nodes.getD (i + 1) ⟨0, 0, 0⟩).x ∧
        (atlasW2.nodes.getD i ⟨0, 0, 0⟩).x < (atlasW2.nodes.getD (i + 1) ⟨0, 0, 0⟩).x) ∧
      (atlasW2.nodes.getD (atlasW2.nodes.length - 1) ⟨0, 0, 0⟩).x +
        (atlasW2.nodes.getD (atlasW2.nodes.length - 1) ⟨0, 0, 0⟩).z = 16 - 1 :=
  claim_C1 reachedW2

/-- C2 witness: pairwise disjointness of the two concretely returned
regions. -/
theorem claim_C2_witness :
    List.Pairwise rectDisjoint [(⟨5, 1, 4, 4⟩ : AtlasRegion), ⟨1, 1, 4, 4⟩] :=
  claim_C2 reachedW2

/-- C3 witness: bounds of the second concretely returned region. -/
theorem claim_C3_witness :
    1 ≤ (⟨5, 1, 4, 4⟩ : AtlasRegion).X ∧ 1 ≤ (⟨5, 1, 4, 4⟩ : AtlasRegion).Y ∧
      (⟨5, 1, 4, 4⟩ : AtlasRegion).X + (⟨5, 1, 4, 4⟩ : AtlasRegion).W ≤ 16 - 1 ∧
      (⟨5, 1, 4, 4⟩ : AtlasRegion).Y + (⟨5, 1, 4, 4⟩ : AtlasRegion).H ≤ 16 - 1 :=
  claim_C3 reachedW1 (by decide : (0 : Int) < 4) (by decide : (0 : Int) < 4)
    (by decide : atlasW1.Allocate 4 4 = some (⟨5, 1, 4, 4⟩, true, atlasW2))

/-- C5 witness: the no-adjacent-equal-height statement on a concrete
reachable atlas. -/
theorem claim_C5_witness :
    (∀ (w h : Int) (r : AtlasRegion) (b : Bool) (a' : TextureAtlas),
      atlasW1.Allocate w h = some (r, b, a') →
      ∀ i : Nat, i + 1 < a'.nodes.length →
        (a'.nodes.getD i ⟨0, 0, 0⟩).y ≠ (a'.nodes.getD (i + 1) ⟨0, 0, 0⟩).y) ∧
    (∀ a' : TextureAtlas, atlasW1.Clear = some a' →
      ∀ i : Nat, i + 1 < a'.nodes.length →
        (a'.nodes.getD i ⟨0, 0, 0⟩).y ≠ (a'.nodes.getD (i + 1) ⟨0, 0, 0⟩).y) :=
  claim_C5 reachedW1

/-- C6 witness: an oversized request on the fresh 16x16 atlas fails. -/
theorem claim_C6_witness :
    (atlasW.Allocate 100 100).map (fun p => p.2.1) = some false :=
  claim_C6 reachedW0 (by decide) (by decide) (Or.inl (by decide))

/-- C9 witness: the failing oversized request leaves the concrete atlas
unchanged. -/
theorem claim_C9_witness :
    atlasW.nodes = atlasW.nodes ∧ atlasW.data = atlasW.data ∧
      atlasW.used = atlasW.used :=
  claim_C9 (by decide : atlasW.Allocate 100 100 = some (⟨0, 0, 100, 100⟩, false, atlasW))

/-- C4: the spec's concrete 16x16 scenario.  A fresh atlas has the single
node `{1, 1, 14}`; the first `Allocate 4 4` returns `{1, 1, 4, 4}` and
leaves nodes `[{1,5,4}, {5,1,10}]`; the second returns `{5, 1, 4, 4}` and,
after the merge pass fuses `[{1,5,4}, {5,5,4}, {9,1,6}]`, leaves
`[{1,5,8}, {9,1,6}]`. -/
theorem claim_C4 :
    NewTextureAtlas 16 16 1 = some atlasW ∧
    atlasW.nodes = [⟨1, 1, 14⟩] ∧
    atlasW.Allocate 4 4 = some (⟨1, 1, 4, 4⟩, true, atlasW1) ∧
    atlasW1.nodes = [⟨1, 5, 4⟩, ⟨5, 1, 10⟩] ∧
    atlasW1.Allocate 4 4 = some (⟨5, 1, 4, 4⟩, true, atlasW2) ∧
    merge [⟨1, 5, 4⟩, ⟨5, 5, 4⟩, ⟨9, 1, 6⟩] = [⟨1, 5, 8⟩, ⟨9, 1, 6⟩] ∧
    atlasW2.nodes = [⟨1, 5, 8⟩, ⟨9, 1, 6⟩] := by
  refine ⟨by decide, rfl, by decide, rfl, by decide, by decide, rfl⟩

/-- C8 counterexample: on a released atlas, `Allocate` does not fail
loudly — it completes normally and returns an ordinary failure result. -/
theorem claim_C8_counterexample :
    (atlasW.Release).Allocate 4 4 = some (⟨0, 0, 4, 4⟩, false, atlasW.Release) := by
  decide

/-- C8 amended: after `Release`, `Clear` panics (fails loudly, modelled by
`none`), but `Allocate` completes normally and returns failure as an
ordinary result, leaving the released state unchanged. -/
theorem claim_C8_amended (a : TextureAtlas) (w h : Int) :
    (a.Release).Clear = none ∧
    (a.Release).Allocate w h = some (⟨0, 0, w, h⟩, false, a.Release) :=
  ⟨rfl, rfl⟩

/-! ## Lemmas about `copySlice`, `setRow` and `Set` -/

theorem copySlice_length {dst chunk : List Nat} {dp : Nat}
    (h : dp + chunk.length ≤ dst.length) :
    (copySlice dst dp chunk).length = dst.length := by
  simp only [copySlice, List.length_append, List.length_take, List.length_drop]
  omega

theorem copySlice_getElem_lo {dst chunk : List Nat} {dp j : Nat}
    (hdp : dp + chunk.length ≤ dst.length) (hj : j < dp) :
    (copySlice dst dp chunk)[j]? = dst[j]? := by
  have hlt : (dst.take dp).length = dp := by
    simp only [List.length_take]
    omega
  unfold copySlice
  rw [List.append_assoc, List.getElem?_append_left (by omega : j < (dst.take dp).length),
    List.getElem?_take, if_pos hj]

theorem copySlice_getElem_mid {dst chunk : List Nat} {dp j : Nat}
    (hdp : dp + chunk.length ≤ dst.length) (hj1 : dp ≤ j) (hj2 : j < dp + chunk.length) :
    (copySlice dst dp chunk)[j]? = chunk[j - dp]? := by
  have hlt : (dst.take dp).length = dp := by
    simp only [List.length_take]
    omega
  unfold copySlice
  rw [List.append_assoc, List.getElem?_append_right (by omega : (dst.take dp).length ≤ j),
    hlt, List.getElem?_append_left (by omega : j - dp < chunk.length)]

theorem copySlice_getElem_hi {dst chunk : List Nat} {dp j : Nat}
    (hdp : dp + chunk.length ≤ dst.length) (hj : dp + chunk.length ≤ j) :
    (copySlice dst dp chunk)[j]? = dst[j]? := by
  have hlt : (dst.take dp).length = dp := by
    simp only [List.length_take]
    omega
  unfold copySlice
  rw [List.append_assoc, List.getElem?_append_right (by omega : (dst.take dp).length ≤ j),
    hlt, List.getElem?_append_right (by omega : chunk.length ≤ j - dp),
    List.getElem?_drop]
  congr 1
  omega

theorem setRows_frame {awidth adepth x y stride : Int} {src : List Nat} :
    ∀ (n : Nat) (dst : List Nat), 0 ≤ stride →
      (∀ i : Nat, i < n → 0 ≤ rowOff awidth adepth x y i ∧
        rowOff awidth adepth x y i + stride ≤ (dst.length : Int)) →
      (∀ i : Nat, i < n → (i : Int) * stride + stride ≤ (src.length : Int)) →
      ∃ d, (List.range n).foldlM (setRow awidth adepth x y stride src) dst = some d ∧
        d.length = dst.length ∧
        ∀ j : Nat,
          (∀ i : Nat, i < n → ¬(rowOff awidth adepth x y i ≤ (j : Int) ∧
            (j : Int) < rowOff awidth adepth x y i + stride)) →
          d[j]? = dst[j]? := by
  intro n
  induction n with
  | zero =>
      intro dst hs _ _
      exact ⟨dst, rfl, rfl, fun j _ => rfl⟩
  | succ n ih =>
      intro dst hs hin hsrc
      obtain ⟨d1, hd1, hlen1, hframe1⟩ := ih dst hs
        (fun i hi => hin i (by omega)) (fun i hi => hsrc i (by omega))
      have hinN := hin n (by omega)
      have hsrcN := hsrc n (by omega)
      have hspN : 0 ≤ (n : Int) * stride := mul_nonneg (Int.natCast_nonneg n) hs
      have hchunk : ((src.drop ((n : Int) * stride).toNat).take stride.toNat).length
          = stride.toNat := by
        simp only [List.length_take, List.length_drop]
        omega
      have hrow : setRow awidth adepth x y stride src d1 n =
          some (copySlice d1 (rowOff awidth adepth x y n).toNat
            ((src.drop ((n : Int) * stride).toNat).take stride.toNat)) := by
        simp only [setRow]
        rw [if_pos ⟨hinN.1, hs, hspN, by rw [hlen1]; exact hinN.2, hsrcN⟩]
      have hcap : (rowOff awidth adepth x y n).toNat +
          ((src.drop ((n : Int) * stride).toNat).take stride.toNat).length ≤ d1.length := by
        rw [hchunk, hlen1]
        omega
      refine ⟨copySlice d1 (rowOff awidth adepth x y n).toNat
          ((src.drop ((n : Int) * stride).toNat).take stride.toNat), ?_, ?_, ?_⟩
      · rw [List.range_succ, List.foldlM_append, hd1]
        simp [List.foldlM, hrow]
      · rw [copySlice_length hcap, hlen1]
      · intro j hj
        have hjn := hj n (by omega)
        have hjlo : (j : Int) < rowOff awidth adepth x y n ∨
            rowOff awidth adepth x y n + stride ≤ (j : Int) := by
          by_cases h1 : (j : Int) < rowOff awidth adepth x y n
          · exact Or.inl h1
          · refine Or.inr ?_
            by_cases h2 : rowOff awidth adepth x y n + stride ≤ (j : Int)
            · exact h2
            · exact absurd ⟨by omega, by omega⟩ hjn
        have hrest : d1[j]? = dst[j]? :=
          hframe1 j (fun i hi => hj i (by omega))
        rcases hjlo with h1 | h1
        · rw [copySlice_getElem_lo hcap (by omega)]
          exact hrest
        · rw [copySlice_getElem_hi hcap (by rw [hchunk]; omega)]
          exact hrest

theorem rowOff_mono {awidth adepth x y stride : Int} (hs : 0 ≤ stride)
    (hpitch : stride ≤ awidth * adepth) :
    ∀ i n : Nat, i < n →
      rowOff awidth adepth x y i + stride ≤ rowOff awidth adepth x y n := by
  intro i n hin
  have hexp : rowOff awidth adepth x y n - rowOff awidth adepth x y i =
      ((n : Int) - (i : Int)) * (awidth * adepth) := by
    unfold rowOff
    ring
  have hni : (1 : Int) ≤ (n : Int) - (i : Int) := by
    have := Int.ofNat_lt.mpr hin
    omega
  have hpos : (0 : Int) ≤ awidth * adepth := le_trans hs hpitch
  have hstep : awidth * adepth ≤ ((n : Int) - (i : Int)) * (awidth * adepth) :=
    le_mul_of_one_le_left hpos hni
  linarith

theorem setRows_read {awidth adepth x y stride : Int} {src : List Nat}
    (hs : 0 ≤ stride) (hpitch : stride ≤ awidth * adepth) :
    ∀ (n : Nat) (dst : List Nat),
      (∀ i : Nat, i < n → 0 ≤ rowOff awidth adepth x y i ∧
        rowOff awidth adepth x y i + stride ≤ (dst.length : Int)) →
      (∀ i : Nat, i < n → (i : Int) * stride + stride ≤ (src.length : Int)) →
      ∃ d, (List.range n).foldlM (setRow awidth adepth x y stride src) dst = some d ∧
        d.length = dst.length ∧
        ∀ i : Nat, i < n → ∀ k : Nat, k < stride.toNat →
          d[(rowOff awidth adepth x y i).toNat + k]? =
            src[((i : Int) * stride).toNat + k]? := by
  intro n
  induction n with
  | zero =>
      intro dst _ _
      exact ⟨dst, rfl, rfl, fun i hi => absurd hi (by omega)⟩
  | succ n ih =>
      intro dst hin hsrc
      obtain ⟨d1, hd1, hlen1, hread1⟩ := ih dst
        (fun i hi => hin i (by omega)) (fun i hi => hsrc i (by omega))
      have hinN := hin n (by omega)
      have hsrcN := hsrc n (by omega)
      have hspN : 0 ≤ (n : Int) * stride := mul_nonneg (Int.natCast_nonneg n) hs
      have hchunk : ((src.drop ((n : Int) * stride).toNat).take stride.toNat).length
          = stride.toNat := by
        simp only [List.length_take, List.length_drop]
        omega
      have hrow : setRow awidth adepth x y stride src d1 n =
          some (copySlice d1 (rowOff awidth adepth x y n).toNat
            ((src.drop ((n : Int) * stride).toNat).take stride.toNat)) := by
        simp only [setRow]
        rw [if_pos ⟨hinN.1, hs, hspN, by rw [hlen1]; exact hinN.2, hsrcN⟩]
      have hcap : (rowOff awidth adepth x y n).toNat +
          ((src.drop ((n : Int) * stride).toNat).take stride.toNat).length ≤ d1.length := by
        rw [hchunk, hlen1]
        omega
      refine ⟨copySlice d1 (rowOff awidth adepth x y n).toNat
          ((src.drop ((n : Int) * stride).toNat).take stride.toNat), ?_, ?_, ?_⟩
      · rw [List.range_succ, List.foldlM_append, hd1]
        simp [List.foldlM, hrow]
      · rw [copySlice_length hcap, hlen1]
      · intro i hi k hk
        by_cases hieq : i = n
        · subst hieq
          rw [copySlice_getElem_mid hcap (by omega) (by rw [hchunk]; omega)]
          have hsub : (rowOff awidth adepth x y i).toNat + k -
              (rowOff awidth adepth x y i).toNat = k := by omega
          rw [hsub, List.getElem?_take, if_pos hk, List.getElem?_drop]
        · have hilt : i < n := by omega
          have hmono : rowOff awidth adepth x y i + stride ≤ rowOff awidth adepth x y n :=
            rowOff_mono hs hpitch i n hilt
          have hlo : (rowOff awidth adepth x y i).toNat + k <
              (rowOff awidth adepth x y n).toNat := by
            have hnn := (hin i (by omega)).1
            omega
          rw [copySlice_getElem_lo hcap hlo]
          exact hread1 i hilt k hk

theorem readRow_eq {d src : List Nat} {off sp len : Nat}
    (h : ∀ k : Nat, k < len → d[off + k]? = src[sp + k]?) :
    readRow d off len = (src.drop sp).take len := by
  apply List.ext_getElem?
  intro k
  unfold readRow
  rw [List.getElem?_take, List.getElem?_take]
  by_cases hk : k < len
  · rw [if_pos hk, if_pos hk, List.getElem?_drop, List.getElem?_drop]
    exact h k hk
  · rw [if_neg hk, if_neg hk]

/-! ## Claim theorems: pixel surface -/

/-- C10: an in-bounds `Set` call succeeds, changes only the pixel buffer
bytes inside the targeted row ranges, and leaves the node list, used
counter and dimensions unchanged. -/
theorem claim_C10 {a : TextureAtlas} {region : AtlasRegion} {src : List Nat} {stride : Int}
    (hX : 0 ≤ region.X) (hY : 0 ≤ region.Y) (hH : 0 ≤ region.H) (hs : 0 ≤ stride)
    (hin : ∀ i : Nat, i < region.H.toNat →
      0 ≤ ((region.Y + (i : Int)) * a.width + region.X) * a.depth ∧
      ((region.Y + (i : Int)) * a.width + region.X) * a.depth + stride ≤
        (a.data.length : Int))
    (hsrc : ∀ i : Nat, i < region.H.toNat →
      (i : Int) * stride + stride ≤ (src.length : Int)) :
    ∃ a', a.Set region src stride = some a' ∧
      a'.nodes = a.nodes ∧ a'.used = a.used ∧ a'.width = a.width ∧
      a'.height = a.height ∧ a'.depth = a.depth ∧
      a'.data.length = a.data.length ∧
      ∀ j : Nat,
        (∀ i : Nat, i < region.H.toNat →
          ¬(((region.Y + (i : Int)) * a.width + region.X) * a.depth ≤ (j : Int) ∧
            (j : Int) < ((region.Y + (i : Int)) * a.width + region.X) * a.depth + stride)) →
        a'.data[j]? = a.data[j]? := by
  obtain ⟨d, hd, hlen, hframe⟩ := setRows_frame region.H.toNat a.data hs hin hsrc
  refine ⟨⟨a.nodes, d, a.used, a.width, a.height, a.depth⟩, ?_, rfl, rfl, rfl, rfl, rfl,
    hlen, hframe⟩
  unfold TextureAtlas.Set
  rw [hd]

/-- C7 (amended): the round-trip holds when additionally the destination
rows cannot overlap, i.e. `stride ≤ width * depth`: after an in-bounds
`Set`, reading back `stride` bytes at each row offset reproduces the
corresponding `stride`-byte slice of the source. -/
theorem claim_C7_amended {a : TextureAtlas} {region : AtlasRegion} {src : List Nat}
    {stride : Int}
    (hX : 0 ≤ region.X) (hY : 0 ≤ region.Y) (hH : 0 ≤ region.H) (hs : 0 ≤ stride)
    (hpitch : stride ≤ a.width * a.depth)
    (hin : ∀ i : Nat, i < region.H.toNat →
      0 ≤ ((region.Y + (i : Int)) * a.width + region.X) * a.depth ∧
      ((region.Y + (i : Int)) * a.width + region.X) * a.depth + stride ≤
        (a.data.length : Int))
    (hsrc : ∀ i : Nat, i < region.H.toNat →
      (i : Int) * stride + stride ≤ (src.length : Int)) :
    ∃ a', a.Set region src stride = some a' ∧
      ∀ i : Nat, i < region.H.toNat →
        readRow a'.data (((region.Y + (i : Int)) * a.width + region.X) * a.depth).toNat
          stride.toNat = (src.drop ((i : Int) * stride).toNat).take stride.toNat := by
  obtain ⟨d, hd, hlen, hread⟩ := setRows_read hs hpitch region.H.toNat a.data hin hsrc
  refine ⟨⟨a.nodes, d, a.used, a.width, a.height, a.depth⟩, ?_, ?_⟩
  · unfold TextureAtlas.Set
    rw [hd]
  · intro i hi
    exact readRow_eq (fun k hk => hread i hi k hk)

def cexAtlas : TextureAtlas := ⟨[⟨1, 1, 2⟩], List.replicate 16 0, 0, 4, 4, 1⟩

def cexRegion : AtlasRegion := ⟨0, 0, 3, 2⟩

def cexSrc : List Nat := [10, 11, 12, 13, 14, 15, 16, 17, 18, 19]

/-- C7 counterexample: on a 4x4 depth-1 atlas with `stride = 5` (larger
than the row pitch `width * depth = 4`) every destination and source
offset of the claim is in bounds, yet reading back row 0 yields
`[10,11,12,13,15]` — its last byte was overwritten by the overlapping
row 1 — and not the bytes `[10,11,12,13,14]` that were written. -/
theorem claim_C7_counterexample :
    NewTextureAtlas 4 4 1 = some cexAtlas ∧
    (0 ≤ cexRegion.X ∧ 0 ≤ cexRegion.Y ∧ 0 ≤ cexRegion.H ∧ (0 : Int) ≤ 5) ∧
    (∀ i : Nat, i < cexRegion.H.toNat →
      0 ≤ ((cexRegion.Y + (i : Int)) * cexAtlas.width + cexRegion.X) * cexAtlas.depth ∧
      ((cexRegion.Y + (i : Int)) * cexAtlas.width + cexRegion.X) * cexAtlas.depth + 5 ≤
        (cexAtlas.data.length : Int)) ∧
    (∀ i : Nat, i < cexRegion.H.toNat → (i : Int) * 5 + 5 ≤ (cexSrc.length : Int)) ∧
    (cexAtlas.Set cexRegion cexSrc 5).map (fun a' => readRow a'.data
      (((cexRegion.Y + ((0 : Nat) : Int)) * cexAtlas.width + cexRegion.X) *
        cexAtlas.depth).toNat (5 : Int).toNat) = some [10, 11, 12, 13, 15] ∧
    (cexSrc.drop (((0 : Nat) : Int) * 5).toNat).take (5 : Int).toNat =
      [10, 11, 12, 13, 14] ∧
    ([10, 11, 12, 13, 15] : List Nat) ≠ [10, 11, 12, 13, 14] := by
  refine ⟨by decide, by decide, by decide, by decide, by decide, by decide, by decide⟩

/-- C10 witness: a concrete in-bounds `Set` on the 4x4 atlas. -/
theorem claim_C10_witness :
    ∃ a', cexAtlas.Set ⟨1, 1, 2, 2⟩ [21, 22, 23, 24] 2 = some a' ∧
      a'.nodes = cexAtlas.nodes ∧ a'.used = cexAtlas.used ∧
      a'.width = cexAtlas.width ∧ a'.height = cexAtlas.height ∧
      a'.depth = cexAtlas.depth ∧ a'.data.length = cexAtlas.data.length ∧
      ∀ j : Nat,
        (∀ i : Nat, i < ((⟨1, 1, 2, 2⟩ : AtlasRegion)).H.toNat →
          ¬(((((⟨1, 1, 2, 2⟩ : AtlasRegion)).Y + (i : Int)) * cexAtlas.width +
              ((⟨1, 1, 2, 2⟩ : AtlasRegion)).X) * cexAtlas.depth ≤ (j : Int) ∧
            (j : Int) < ((((⟨1, 1, 2, 2⟩ : AtlasRegion)).Y + (i : Int)) * cexAtlas.width +
              ((⟨1, 1, 2, 2⟩ : AtlasRegion)).X) * cexAtlas.depth + 2)) →
        a'.data[j]? = cexAtlas.data[j]? :=
  claim_C10 (by decide) (by decide) (by decide) (by decide) (by decide) (by decide)

/-- C7 witness: the amended round-trip on a concrete non-overlapping
in-bounds `Set`. -/
theorem claim_C7_witness :
    ∃ a', cexAtlas.Set ⟨1, 1, 2, 2⟩ [21, 22, 23, 24] 2 = some a' ∧
      ∀ i : Nat, i < ((⟨1, 1, 2, 2⟩ : AtlasRegion)).H.toNat →
        readRow a'.data (((((⟨1, 1, 2, 2⟩ : AtlasRegion)).Y + (i : Int)) * cexAtlas.width +
            ((⟨1, 1, 2, 2⟩ : AtlasRegion)).X) * cexAtlas.depth).toNat (2 : Int).toNat =
          (([21, 22, 23, 24] : List Nat).drop ((i : Int) * 2).toNat).take (2 : Int).toNat :=
  claim_C7_amended (by decide) (by decide) (by decide) (by decide) (by decide) (by decide)
    (by decide)
